import Mathlib

/-!
Verification development for the ATR / Sigma-RVOL trading-strategy repository.

The definitions below are a shallow embedding of the compute core of the
repository: the indicator engine (`technical_indicator.py`,
`src/daily_handler.py`), the expected-cumulative-volume curve builders
(`rvoll_calculator.py::expected_cumvol`,
`intraday_handler.py::intraday_expected_cum_rvol`), the backtest state
machine (`rvoll_calculator.py::run_backtest`) and the performance evaluator
(`rvoll_calculator.py::evaluate_performance`).

Numeric values are modelled with exact rationals; a pandas `NaN` cell is
modelled with `Option.none`.  A pandas `Series` indexed by bar position is
modelled as a function from the bar index to `Option ℚ`.
-/

set_option maxHeartbeats 1000000

/-- One OHLCV price bar.  The compute core only reads the High, Low, Close
and Volume columns, so only those are modelled. -/
structure Bar where
  high : ℚ
  low : ℚ
  close : ℚ
  volume : ℚ
deriving DecidableEq, Repr

/-- The `mode` string argument of the indicator functions in
`technical_indicator.py`: `"backtest"` shifts the result by one bar,
`"live"` does not. -/
inductive Mode where
  | backtest
  | live
deriving DecidableEq, Repr

/-- Close column lookup: `df["Close"]` at bar index `t` (`none` past the end
of the series). -/
def closeAt (bs : List Bar) (t : ℕ) : Option ℚ :=
  (bs[t]?).map (fun b => b.close)

/-- Volume column lookup: `df["Volume"]` at bar index `t`. -/
def volAt (bs : List Bar) (t : ℕ) : Option ℚ :=
  (bs[t]?).map (fun b => b.volume)

/-- True Range used by `technical_indicator.py::atr`: the row-wise max of
`(high-low).abs()`, `(high-prev_close).abs()`, `(low-prev_close).abs()`.
On the first bar `prev_close` is NaN and the pandas row-max skips NaN, so
the value degenerates to `|high - low|`. -/
def trueRange (bs : List Bar) : ℕ → Option ℚ
  | 0 => (bs[0]?).map (fun b => |b.high - b.low|)
  | t + 1 =>
    match bs[t + 1]?, bs[t]? with
    | some b, some p =>
        some (max |b.high - b.low| (max |b.high - p.close| |b.low - p.close|))
    | _, _ => none

/-- pandas `ewm(..., adjust=False).mean()` recursion with smoothing factor
`a`: `y_0 = x_0`, `y_t = (1-a)*y_{t-1} + a*x_t`.  The inputs we feed it
contain no interior NaN, so a NaN input simply poisons the tail. -/
def ewmRec (a : ℚ) (f : ℕ → Option ℚ) : ℕ → Option ℚ
  | 0 => f 0
  | t + 1 =>
    match ewmRec a f t, f (t + 1) with
    | some y, some x => some ((1 - a) * y + a * x)
    | _, _ => none

/-- `technical_indicator.py::atr`: Wilder-style ATR computed as
`tr.ewm(span=window, min_periods=1, adjust=False).mean()` — note pandas
`span=w` means smoothing factor `2/(w+1)` — then shifted by one bar in
`backtest` mode. -/
def atr (bs : List Bar) (window : ℕ) (mode : Mode) (t : ℕ) : Option ℚ :=
  match mode with
  | .live => ewmRec (2 / ((window : ℚ) + 1)) (trueRange bs) t
  | .backtest =>
    match t with
    | 0 => none
    | t + 1 => ewmRec (2 / ((window : ℚ) + 1)) (trueRange bs) t

/-- Sequence a list of optional values: `none` if any entry is missing.
Models an aggregate over a window that contains a NaN. -/
def seqOpt : List (Option ℚ) → Option (List ℚ)
  | [] => some []
  | none :: _ => none
  | some x :: rest => (seqOpt rest).map (fun xs => x :: xs)

/-- The trailing window of `w` values ending at index `t`, as produced by
pandas `rolling(w)` with the default `min_periods = w`: defined only once
`t + 1 ≥ w` and every cell in the window is present. -/
def rollingWindow (f : ℕ → Option ℚ) (w t : ℕ) : Option (List ℚ) :=
  if t + 1 < w then none
  else seqOpt ((List.range w).map (fun i => f (t + 1 - w + i)))

/-- pandas `rolling(w).mean()` (default `min_periods = w`). -/
def smaAt (f : ℕ → Option ℚ) (w t : ℕ) : Option ℚ :=
  (rollingWindow f w t).map (fun xs => xs.sum / (w : ℚ))

/-- The `method` string argument of `technical_indicator.py::rvol`. -/
inductive RvolMethod where
  | sma
  | ewm
  | hybrid
deriving DecidableEq, Repr

/-- The average-volume baseline of `technical_indicator.py::rvol` before the
backtest shift: `sma`, `ewm(span=window, adjust=False)`, or the hybrid blend
`alpha * sma + (1 - alpha) * ewm`.  In the hybrid blend a NaN on either side
poisons the sum (in IEEE arithmetic `0 * NaN` is still NaN). -/
def rvolBaselineLive (bs : List Bar) (w : ℕ) (method : RvolMethod) (a : ℚ)
    (t : ℕ) : Option ℚ :=
  match method with
  | .sma => smaAt (volAt bs) w t
  | .ewm => ewmRec (2 / ((w : ℚ) + 1)) (volAt bs) t
  | .hybrid =>
    match smaAt (volAt bs) w t, ewmRec (2 / ((w : ℚ) + 1)) (volAt bs) t with
    | some s, some e => some (a * s + (1 - a) * e)
    | _, _ => none

/-- The baseline actually divided by in `rvol`: shifted one bar back in
`backtest` mode. -/
def rvolBaseline (bs : List Bar) (w : ℕ) (method : RvolMethod) (a : ℚ)
    (mode : Mode) (t : ℕ) : Option ℚ :=
  match mode with
  | .live => rvolBaselineLive bs w method a t
  | .backtest =>
    match t with
    | 0 => none
    | t + 1 => rvolBaselineLive bs w method a t

/-- `technical_indicator.py::rvol`: current volume divided by the baseline,
with `avg_vol.replace(0, np.nan)` mapping a baseline of exactly zero to
NaN before the division. -/
def rvol (bs : List Bar) (w : ℕ) (method : RvolMethod) (a : ℚ) (mode : Mode)
    (t : ℕ) : Option ℚ :=
  match volAt bs t, rvolBaseline bs w method a mode t with
  | some v, some b => if b = 0 then none else some (v / b)
  | _, _ => none

/-- pandas `rolling(w).std()` squared: the sample variance (`ddof = 1`) of
the trailing window.  pandas returns NaN for `w < 2` (a single observation
with `ddof = 1`).  We track the exact rational variance; the source's
standard deviation is its square root, which is zero / positive exactly
when the variance is. -/
def rollingVarClose (bs : List Bar) (w t : ℕ) : Option ℚ :=
  if w < 2 then none
  else
    (rollingWindow (closeAt bs) w t).map (fun xs =>
      let m := xs.sum / (w : ℚ)
      ((xs.map (fun x => (x - m) ^ 2)).sum) / ((w : ℚ) - 1))

/-- Value of the z-score series `(Close - mean) / std` under IEEE float
semantics: `nan` models NaN (missing statistics, or `0 / 0`), `pinf` /
`ninf` model `±∞` (nonzero numerator over a zero standard deviation), and
`val num variance` models the finite value `num / sqrt variance` with
`variance > 0`. -/
inductive PDev where
  | nan
  | pinf
  | ninf
  | val (num : ℚ) (variance : ℚ)
deriving DecidableEq, Repr

/-- Index whose rolling statistics are used at bar `t`: the bar itself in
`live` mode, the previous bar in `backtest` mode (the `shift(1)` of the
mean and std columns). -/
def pdevIdx (mode : Mode) (t : ℕ) : Option ℕ :=
  match mode with
  | .live => some t
  | .backtest =>
    match t with
    | 0 => none
    | t + 1 => some t

/-- `technical_indicator.py::price_deviation`:
`(Close - rolling_mean) / rolling_std`, with mean and std shifted one bar in
`backtest` mode.  Division follows IEEE semantics: NaN statistics give NaN;
a zero std gives NaN when the numerator is zero and `±∞` otherwise. -/
def price_deviation (bs : List Bar) (w : ℕ) (mode : Mode) (t : ℕ) : PDev :=
  match pdevIdx mode t with
  | none => .nan
  | some s =>
    match closeAt bs t, smaAt (closeAt bs) w s, rollingVarClose bs w s with
    | some c, some m, some v =>
      if v = 0 then
        if c = m then .nan else if m < c then .pinf else .ninf
      else .val (c - m) v
    | _, _, _ => .nan

/-- The `method` argument of `src/daily_handler.py::daily_data_atr`. -/
inductive AtrMethod where
  | wilder
  | smaMethod
deriving DecidableEq, Repr

/-- True Range used by `src/daily_handler.py::daily_data_atr`: the row-wise
max of `high - low` (no abs here), `(high - prev_close).abs()`,
`(low - prev_close).abs()`; `high - low` on the first bar. -/
def trueRangeDaily (bs : List Bar) : ℕ → Option ℚ
  | 0 => (bs[0]?).map (fun b => b.high - b.low)
  | t + 1 =>
    match bs[t + 1]?, bs[t]? with
    | some b, some p =>
        some (max (b.high - b.low) (max |b.high - p.close| |b.low - p.close|))
    | _, _ => none

/-- `src/daily_handler.py::daily_data_atr`: `wilder` is
`tr.ewm(alpha=1/lookback, adjust=False).mean()` — the true Wilder smoothing
factor `1/lookback` — and `sma` is `tr.rolling(lookback,
min_periods=lookback).mean()`. -/
def daily_data_atr (bs : List Bar) (lookback : ℕ) (method : AtrMethod)
    (t : ℕ) : Option ℚ :=
  match method with
  | .wilder => ewmRec (1 / (lookback : ℚ)) (trueRangeDaily bs) t
  | .smaMethod => smaAt (trueRangeDaily bs) lookback t

/-!
Expected cumulative volume curves.

`rvoll_calculator.py::expected_cumvol` pivots the minute data into a
Session × time-of-day matrix of per-session cumulative volume, applies
`rolling(window, min_periods=1).mean()` down each time-of-day column, and
shifts the result forward one session.
`intraday_handler.py::intraday_expected_cum_rvol` is the same construction
with `rolling(window).mean()` (default `min_periods = window`).

A session is a time-sorted list of `(time slot, volume)` pairs with
distinct slots (intraday bar series have strictly increasing timestamps);
the intraday input is the list of its sessions in date order.
-/

/-- One trading day's intraday bars: `(time-of-day slot, volume)` pairs. -/
abbrev TradingSession := List (ℕ × ℚ)

/-- Cell of the pivoted cumulative-volume matrix at (this session, slot `t`):
the session's running cumulative volume at slot `t`, present only when the
session actually has a bar at slot `t` (a missing time-of-day slot is NaN in
the pivot, not zero). -/
def sessionCumAt (s : TradingSession) (t : ℕ) : Option ℚ :=
  if s.any (fun p => p.1 = t) then
    some (((s.filter (fun p => p.1 ≤ t)).map (fun p => p.2)).sum)
  else none

/-- Time-of-day column `t` of the pivoted cumulative-volume matrix, indexed
by session. -/
def cumVolColumn (sessions : List TradingSession) (t : ℕ) : List (Option ℚ) :=
  sessions.map (fun s => sessionCumAt s t)

/-- The trailing `rolling(w)` window of column entries ending at row `i`. -/
def windowSlice (col : List (Option ℚ)) (w i : ℕ) : List (Option ℚ) :=
  (col.take (i + 1)).drop (i + 1 - w)

/-- Mean of the present values of a window, as computed by pandas rolling
mean with `min_periods=1`: NaN cells are skipped, and the result is NaN only
when no cell at all is present. -/
def meanOfPresent (cells : List (Option ℚ)) : Option ℚ :=
  let vs := cells.filterMap id
  if vs.isEmpty then none else some (vs.sum / (vs.length : ℚ))

/-- Mean of a window under the default `min_periods = w`: defined only when
the window holds exactly `w` rows and none of them is NaN. -/
def meanOfFull (w : ℕ) (cells : List (Option ℚ)) : Option ℚ :=
  if cells.length = w then (seqOpt cells).map (fun vs => vs.sum / (w : ℚ))
  else none

/-- `rvoll_calculator.py::expected_cumvol` evaluated at (session index `D`,
time slot `t`): `rolling(w, min_periods=1).mean().shift(1)` down column `t`
of the pivot.  Row indices outside the pivot (`D ≥ number of sessions`) do
not exist in the stacked output. -/
def expected_cumvol (w : ℕ) (sessions : List TradingSession) (D t : ℕ) :
    Option ℚ :=
  if D < sessions.length then
    match D with
    | 0 => none
    | d + 1 => meanOfPresent (windowSlice (cumVolColumn sessions t) w d)
  else none

/-- `intraday_handler.py::intraday_expected_cum_rvol` evaluated at (session
index `D`, time slot `t`): `rolling(w).mean().shift(1)` — no `min_periods`,
so a full window of `w` present prior rows is required. -/
def intraday_expected_cum_rvol (w : ℕ) (sessions : List TradingSession)
    (D t : ℕ) : Option ℚ :=
  if D < sessions.length then
    match D with
    | 0 => none
    | d + 1 => meanOfFull w (windowSlice (cumVolColumn sessions t) w d)
  else none

/-!
Backtest engine: `rvoll_calculator.py::run_backtest`.

The engine consumes the enriched intraday frame (after `dropna()`, so every
signal cell is a plain number), grouped by session in date order.
-/

/-- The ledger actions recorded by the engine. -/
inductive TradeAction where
  | buy
  | sellShort
  | sellClose
  | buyCover
deriving DecidableEq, Repr

/-- One row of the trade ledger.  `day` is the session index standing for
the recorded timestamp's date. -/
structure Trade where
  day : ℕ
  action : TradeAction
  shares : ℚ
  price : ℚ
deriving DecidableEq, Repr

/-- One row of the enriched intraday signal frame consumed by the engine
(after `dropna()`): Close, `Intraday_RVOL_cum`, and yesterday's ATR bands. -/
structure SignalRow where
  close : ℚ
  rvolCum : ℚ
  yUpper : ℚ
  yLower : ℚ
deriving DecidableEq, Repr

/-- The engine's configuration constants (`Config` in
`rvoll_calculator.py`). -/
structure BacktestConfig where
  initialCapital : ℚ
  tradeShares : ℚ
  entryThreshold : ℚ
deriving DecidableEq, Repr

/-- The engine's mutable state: cash, position flag (0 flat, 1 long,
-1 short), open share count, and the ledger built so far. -/
structure EngineState where
  cash : ℚ
  position : ℤ
  shares : ℚ
  trades : List Trade
deriving DecidableEq, Repr

/-- The per-bar entry logic of `run_backtest`: only from flat, go long when
`Intraday_RVOL_cum > threshold` and `Close > Y_ATR_Upper` (cash falls by
shares × price, BUY recorded), else go short when `Intraday_RVOL_cum >
threshold` and `Close < Y_ATR_Lower` (cash rises, SELL_SHORT recorded). -/
def stepBar (cfg : BacktestConfig) (day : ℕ) (st : EngineState)
    (row : SignalRow) : EngineState :=
  if st.position = 0 then
    if cfg.entryThreshold < row.rvolCum ∧ row.yUpper < row.close then
      { st with
        position := 1
        shares := cfg.tradeShares
        cash := st.cash - cfg.tradeShares * row.close
        trades := st.trades ++ [⟨day, .buy, cfg.tradeShares, row.close⟩] }
    else if cfg.entryThreshold < row.rvolCum ∧ row.close < row.yLower then
      { st with
        position := -1
        shares := cfg.tradeShares
        cash := st.cash + cfg.tradeShares * row.close
        trades := st.trades ++ [⟨day, .sellShort, cfg.tradeShares, row.close⟩] }
    else st
  else st

/-- The unconditional end-of-day exit of `run_backtest`: at the session's
last bar an open long is sold (SELL_CLOSE, cash rises) and an open short is
covered (BUY_COVER, cash falls), both at that bar's Close, after which
position and shares are reset to zero. -/
def closeDay (day : ℕ) (bars : List SignalRow) (st : EngineState) :
    EngineState :=
  match bars.getLast? with
  | none => st
  | some lastBar =>
    if st.position = 1 then
      { st with
        cash := st.cash + st.shares * lastBar.close
        trades := st.trades ++ [⟨day, .sellClose, st.shares, lastBar.close⟩]
        position := 0
        shares := 0 }
    else if st.position = -1 then
      { st with
        cash := st.cash - st.shares * lastBar.close
        trades := st.trades ++ [⟨day, .buyCover, st.shares, lastBar.close⟩]
        position := 0
        shares := 0 }
    else st

/-- One full session of the engine: scan the bars in order, then apply the
end-of-day exit. -/
def runDay (cfg : BacktestConfig) (day : ℕ) (bars : List SignalRow)
    (st : EngineState) : EngineState :=
  closeDay day bars (bars.foldl (stepBar cfg day) st)

/-- The engine's day loop from session index `day` onward, also recording
the per-session portfolio value (equal to cash, since the engine is flat at
each session end). -/
def runFrom (cfg : BacktestConfig) (day : ℕ) (st : EngineState) :
    List (List SignalRow) → EngineState × List ℚ
  | [] => (st, [])
  | d :: rest =>
    ((runFrom cfg (day + 1) (runDay cfg day d st) rest).1,
      (runDay cfg day d st).cash ::
        (runFrom cfg (day + 1) (runDay cfg day d st) rest).2)

/-- The engine's initial state: flat with the configured initial capital. -/
def initState (cfg : BacktestConfig) : EngineState :=
  ⟨cfg.initialCapital, 0, 0, []⟩

/-- `rvoll_calculator.py::run_backtest`: final engine state (carrying the
trade ledger) and the portfolio history. -/
def run_backtest (cfg : BacktestConfig) (days : List (List SignalRow)) :
    EngineState × List ℚ :=
  runFrom cfg 0 (initState cfg) days

/-- The engine state at the end of each session of a run, in order. -/
def sessionEndStates (cfg : BacktestConfig) (day : ℕ) (st : EngineState) :
    List (List SignalRow) → List EngineState
  | [] => []
  | d :: rest =>
    runDay cfg day d st ::
      sessionEndStates cfg (day + 1) (runDay cfg day d st) rest

/-!
Performance evaluator: `rvoll_calculator.py::evaluate_performance`.
-/

/-- P&L of one (entry, exit) ledger pair: `(exit.price - entry.price) *
entry.shares` when the entry is a BUY, `(entry.price - exit.price) *
entry.shares` otherwise (SELL_SHORT). -/
def pnlOfPair (e x : Trade) : ℚ :=
  if e.action = TradeAction.buy then (x.price - e.price) * e.shares
  else (e.price - x.price) * e.shares

/-- The evaluator's pairing loop `for i in range(0, len(trades), 2)` with
exit `trades[i+1]`: `none` models the IndexError raised when the final
stride-2 entry has no following exit row. -/
def pairPnls : List Trade → Option (List ℚ)
  | [] => some []
  | [_] => none
  | e :: x :: rest => (pairPnls rest).map (fun l => pnlOfPair e x :: l)

/-- The trade statistics printed by the evaluator. -/
structure PerfStats where
  numTrades : ℕ
  wins : List ℚ
  losses : List ℚ
  winRate : ℚ
  avgWin : ℚ
  avgLoss : ℚ
deriving DecidableEq, Repr

/-- Outcome of a call to the evaluator: the graceful empty-input report, an
IndexError (odd ledger), or the computed statistics. -/
inductive PerfReport where
  | noTrades
  | indexError
  | report (s : PerfStats)
deriving DecidableEq, Repr

/-- `rvoll_calculator.py::evaluate_performance`: returns the "no trades"
report when the ledger or the portfolio history is empty; otherwise pairs
the ledger with stride 2 and computes trade count `len // 2`, win rate
`wins / num_trades * 100` (0 when `num_trades` is 0), and the average of
each P&L bucket (0 when the bucket is empty).  Wins are the pairs with
strictly positive P&L; all other pairs are losses. -/
def evaluate_performance (trades : List Trade) (portfolio : List ℚ) :
    PerfReport :=
  if trades.isEmpty || portfolio.isEmpty then .noTrades
  else
    match pairPnls trades with
    | none => .indexError
    | some pnls =>
      let numTrades := trades.length / 2
      let wins := pnls.filter (fun p => decide (0 < p))
      let losses := pnls.filter (fun p => !decide (0 < p))
      .report
        { numTrades := numTrades
          wins := wins
          losses := losses
          winRate :=
            if numTrades = 0 then 0
            else (wins.length : ℚ) / (numTrades : ℚ) * 100
          avgWin := if wins.isEmpty then 0 else wins.sum / (wins.length : ℚ)
          avgLoss :=
            if losses.isEmpty then 0 else losses.sum / (losses.length : ℚ) }

/-- Signed cash effect of one recorded trade, as the claims state it: a BUY
or BUY_COVER of `s` shares at price `p` changes cash by `−s·p`, a
SELL_SHORT or SELL_CLOSE by `+s·p`. -/
def tradeDelta (tr : Trade) : ℚ :=
  match tr.action with
  | .buy => -(tr.shares * tr.price)
  | .sellShort => tr.shares * tr.price
  | .sellClose => tr.shares * tr.price
  | .buyCover => -(tr.shares * tr.price)

/-- Whether `x` is the matching exit row for the entry row `e`: SELL_CLOSE
after BUY or BUY_COVER after SELL_SHORT, with the same share count,
recorded in the same session. -/
def exitMatches (e x : Trade) : Bool :=
  decide ((e.action = TradeAction.buy ∧ x.action = TradeAction.sellClose) ∨
    (e.action = TradeAction.sellShort ∧ x.action = TradeAction.buyCover)) &&
  decide (e.shares = x.shares) && decide (e.day = x.day)

/-- The ledger-shape invariant assumed by the evaluator: the ledger splits
into consecutive (entry, exit) pairs, each exit matching its entry; in
particular the length is even. -/
def alternatingLedger : List Trade → Bool
  | [] => true
  | [_] => false
  | e :: x :: rest => exitMatches e x && alternatingLedger rest

/-!
Concrete fixtures used by witnesses and counterexamples.
-/

/-- A bar carrying only a Close value. -/
def closeBar (c : ℚ) : Bar := ⟨0, 0, c, 0⟩

/-- A bar carrying only a Volume value. -/
def volBar (v : ℚ) : Bar := ⟨0, 0, 0, v⟩

/-- Two bars with True Range sequence `[2, 3]` (both variants agree on
them). -/
def barsWilder : List Bar := [⟨2, 0, 1, 0⟩, ⟨4, 1, 2, 0⟩]

/-- First demo session: cumulative volume `2` at slot 0 and `5` at slot 1. -/
def sessionA : TradingSession := [(0, 2), (1, 3)]

/-- Second demo session: cumulative volume `4` at slot 0 and `5` at slot 1. -/
def sessionB : TradingSession := [(0, 4), (1, 1)]

/-- Third demo session, with different volumes from the first two. -/
def sessionC : TradingSession := [(0, 7), (1, 9)]

/-- Demo engine configuration. -/
def cfgDemo : BacktestConfig := ⟨10000, 100, 3 / 2⟩

/-- A bar that triggers the long entry under `cfgDemo`. -/
def rowEntryLong : SignalRow := ⟨50, 2, 40, 30⟩

/-- A well-formed two-row demo ledger: one long round trip with P&L 500. -/
def demoTrades : List Trade :=
  [⟨0, .buy, 100, 50⟩, ⟨0, .sellClose, 100, 55⟩]

/-!
Shared helper lemmas.
-/

/-- Two series agreeing on a prefix agree at every index inside it. -/
lemma getElem?_eq_of_take_eq {α : Type} {xs ys : List α} {m j : ℕ}
    (h : xs.take m = ys.take m) (hj : j < m) : xs[j]? = ys[j]? := by
  rw [← List.getElem?_take_of_lt (l := xs) hj, h,
    List.getElem?_take_of_lt (l := ys) hj]

lemma closeAt_congr {xs ys : List Bar} {k : ℕ}
    (h : xs.take (k + 1) = ys.take (k + 1)) {j : ℕ} (hj : j ≤ k) :
    closeAt xs j = closeAt ys j := by
  unfold closeAt
  rw [getElem?_eq_of_take_eq h (by omega)]

lemma volAt_congr {xs ys : List Bar} {k : ℕ}
    (h : xs.take (k + 1) = ys.take (k + 1)) {j : ℕ} (hj : j ≤ k) :
    volAt xs j = volAt ys j := by
  unfold volAt
  rw [getElem?_eq_of_take_eq h (by omega)]

lemma trueRange_congr {xs ys : List Bar} {k : ℕ}
    (h : xs.take (k + 1) = ys.take (k + 1)) {j : ℕ} (hj : j ≤ k) :
    trueRange xs j = trueRange ys j := by
  cases j with
  | zero =>
    simp only [trueRange]
    rw [getElem?_eq_of_take_eq h (by omega)]
  | succ t =>
    simp only [trueRange]
    rw [getElem?_eq_of_take_eq h (by omega),
      getElem?_eq_of_take_eq (j := t) h (by omega)]

lemma ewmRec_congr {a : ℚ} {f g : ℕ → Option ℚ} {k : ℕ}
    (h : ∀ j, j ≤ k → f j = g j) : ewmRec a f k = ewmRec a g k := by
  induction k with
  | zero => simpa [ewmRec] using h 0 le_rfl
  | succ t ih =>
    unfold ewmRec
    rw [ih (fun j hj => h j (by omega)), h (t + 1) le_rfl]

lemma rollingWindow_congr {f g : ℕ → Option ℚ} {w s : ℕ}
    (h : ∀ j, j ≤ s → f j = g j) : rollingWindow f w s = rollingWindow g w s := by
  unfold rollingWindow
  split
  · rfl
  · next hns =>
    congr 1
    refine List.map_congr_left (fun i hi => ?_)
    have hi' : i < w := List.mem_range.mp hi
    exact h _ (by omega)

lemma smaAt_congr {f g : ℕ → Option ℚ} {w s : ℕ}
    (h : ∀ j, j ≤ s → f j = g j) : smaAt f w s = smaAt g w s := by
  unfold smaAt
  rw [rollingWindow_congr h]

lemma rollingVarClose_congr {xs ys : List Bar} {k : ℕ}
    (h : xs.take (k + 1) = ys.take (k + 1)) {w s : ℕ} (hs : s ≤ k) :
    rollingVarClose xs w s = rollingVarClose ys w s := by
  unfold rollingVarClose
  split
  · rfl
  · rw [rollingWindow_congr (fun j hj => closeAt_congr h (by omega))]

lemma seqOpt_isSome_forall {l : List (Option ℚ)}
    (h : (seqOpt l).isSome = true) : ∀ o ∈ l, o.isSome = true := by
  induction l with
  | nil => intro o ho; cases ho
  | cons a rest ih =>
    intro o ho
    cases a with
    | none => simp [seqOpt] at h
    | some x =>
      unfold seqOpt at h
      cases hseq : seqOpt rest with
      | none => rw [hseq] at h; simp at h
      | some vs =>
        rcases ho with _ | ⟨_, hrest⟩
        · rfl
        · exact ih (by rw [hseq]; rfl) _ hrest

lemma volAt_isSome {bs : List Bar} {j : ℕ} (h : j < bs.length) :
    (volAt bs j).isSome = true := by
  unfold volAt
  rcases List.getElem?_eq_some_iff.mpr ⟨h, rfl⟩ with hj
  rw [hj]
  rfl

lemma volAt_lt_length {bs : List Bar} {j : ℕ}
    (h : (volAt bs j).isSome = true) : j < bs.length := by
  unfold volAt at h
  cases hj : bs[j]? with
  | none => rw [hj] at h; simp at h
  | some b => exact (List.getElem?_eq_some_iff.mp hj).1

lemma ewmRec_isSome {a : ℚ} {f : ℕ → Option ℚ} {k : ℕ}
    (h : ∀ j, j ≤ k → (f j).isSome = true) : (ewmRec a f k).isSome = true := by
  induction k with
  | zero => simpa [ewmRec] using h 0 le_rfl
  | succ t ih =>
    unfold ewmRec
    have h1 := ih (fun j hj => h j (by omega))
    have h2 := h (t + 1) le_rfl
    rcases Option.isSome_iff_exists.mp h1 with ⟨y, hy⟩
    rcases Option.isSome_iff_exists.mp h2 with ⟨x, hx⟩
    rw [hy, hx]
    rfl

lemma smaAt_isSome_last {f : ℕ → Option ℚ} {w s : ℕ} (hw : 1 ≤ w)
    (h : (smaAt f w s).isSome = true) : (f s).isSome = true := by
  unfold smaAt rollingWindow at h
  split at h
  · simp at h
  · next hns =>
    rw [Option.isSome_map'] at h
    refine seqOpt_isSome_forall h (f s) ?_
    refine List.mem_map.mpr ⟨w - 1, List.mem_range.mpr (by omega), ?_⟩
    congr 1
    omega

lemma atr_congr {xs ys : List Bar} {k : ℕ}
    (h : xs.take (k + 1) = ys.take (k + 1)) {n : ℕ} :
    atr xs n .backtest k = atr ys n .backtest k := by
  cases k with
  | zero => rfl
  | succ t =>
    simp only [atr]
    exact ewmRec_congr (fun j hj => trueRange_congr h (by omega))

lemma rvolBaselineLive_congr {xs ys : List Bar} {k : ℕ}
    (h : xs.take (k + 1) = ys.take (k + 1)) {w : ℕ} {method : RvolMethod}
    {a : ℚ} {s : ℕ} (hs : s ≤ k) :
    rvolBaselineLive xs w method a s = rvolBaselineLive ys w method a s := by
  have hsma : smaAt (volAt xs) w s = smaAt (volAt ys) w s :=
    smaAt_congr (fun j hj => volAt_congr h (by omega))
  have hewm : ewmRec (2 / ((w : ℚ) + 1)) (volAt xs) s
      = ewmRec (2 / ((w : ℚ) + 1)) (volAt ys) s :=
    ewmRec_congr (fun j hj => volAt_congr h (by omega))
  cases method with
  | sma => exact hsma
  | ewm => exact hewm
  | hybrid =>
    simp only [rvolBaselineLive]
    rw [hsma, hewm]

lemma rvol_congr {xs ys : List Bar} {k : ℕ}
    (h : xs.take (k + 1) = ys.take (k + 1)) {w : ℕ} {method : RvolMethod}
    {a : ℚ} :
    rvol xs w method a .backtest k = rvol ys w method a .backtest k := by
  have hbase : rvolBaseline xs w method a .backtest k
      = rvolBaseline ys w method a .backtest k := by
    cases k with
    | zero => rfl
    | succ t =>
      simp only [rvolBaseline]
      exact rvolBaselineLive_congr h (by omega)
  simp only [rvol]
  rw [hbase, volAt_congr h le_rfl]

lemma price_deviation_congr {xs ys : List Bar} {k : ℕ}
    (h : xs.take (k + 1) = ys.take (k + 1)) {w : ℕ} :
    price_deviation xs w .backtest k = price_deviation ys w .backtest k := by
  cases k with
  | zero => rfl
  | succ t =>
    simp only [price_deviation, pdevIdx]
    rw [closeAt_congr h le_rfl,
      smaAt_congr (w := w) (s := t) (fun j hj => closeAt_congr h (by omega)),
      rollingVarClose_congr h (by omega)]

lemma expected_cumvol_congr {w : ℕ} {ss1 ss2 : List TradingSession} {D t : ℕ}
    (h : ss1.take D = ss2.take D) (h1 : D < ss1.length) (h2 : D < ss2.length) :
    expected_cumvol w ss1 D t = expected_cumvol w ss2 D t := by
  cases D with
  | zero =>
    unfold expected_cumvol
    rw [if_pos h1, if_pos h2]
  | succ d =>
    have e1 : expected_cumvol w ss1 (d + 1) t
        = meanOfPresent (windowSlice (cumVolColumn ss1 t) w d) := by
      unfold expected_cumvol
      rw [if_pos h1]
    have e2 : expected_cumvol w ss2 (d + 1) t
        = meanOfPresent (windowSlice (cumVolColumn ss2 t) w d) := by
      unfold expected_cumvol
      rw [if_pos h2]
    rw [e1, e2]
    unfold windowSlice cumVolColumn
    rw [← List.map_take, ← List.map_take, h]

/-- C1 (causality / no leakage): in `backtest` mode the ATR, RVOL and
PriceDeviation values attributed to bar index `k`, and the expected
cumulative-volume curve value attributed to session `D`, are identical
between two runs whose inputs agree up to and including that point
(`take (k+1)` resp. `take D`) and differ arbitrarily afterwards — bars
or whole sessions after the point may be mutated or removed. -/
theorem causality_no_leakage
    (xs ys : List Bar) (k : ℕ) (hbars : xs.take (k + 1) = ys.take (k + 1))
    (n w wp : ℕ) (method : RvolMethod) (a : ℚ)
    (wv : ℕ) (ss1 ss2 : List TradingSession) (D t : ℕ)
    (hss : ss1.take D = ss2.take D)
    (hD1 : D < ss1.length) (hD2 : D < ss2.length) :
    atr xs n .backtest k = atr ys n .backtest k ∧
    rvol xs w method a .backtest k = rvol ys w method a .backtest k ∧
    price_deviation xs wp .backtest k = price_deviation ys wp .backtest k ∧
    expected_cumvol wv ss1 D t = expected_cumvol wv ss2 D t :=
  ⟨atr_congr hbars, rvol_congr hbars, price_deviation_congr hbars,
    expected_cumvol_congr hss hD1 hD2⟩

/-- Witness for C1: two three-bar series agreeing on their first two bars
but differing at the third, and two session lists agreeing on the first
session only; all four backtest-mode values at the agreement point
coincide. -/
theorem causality_no_leakage_witness :
    atr [⟨2, 0, 1, 4⟩, ⟨4, 1, 2, 6⟩, ⟨9, 8, 9, 50⟩] 2 .backtest 1
      = atr [⟨2, 0, 1, 4⟩, ⟨4, 1, 2, 6⟩, ⟨1, 0, 1, 1⟩] 2 .backtest 1 ∧
    rvol [⟨2, 0, 1, 4⟩, ⟨4, 1, 2, 6⟩, ⟨9, 8, 9, 50⟩] 2 .hybrid (1 / 2)
        .backtest 1
      = rvol [⟨2, 0, 1, 4⟩, ⟨4, 1, 2, 6⟩, ⟨1, 0, 1, 1⟩] 2 .hybrid (1 / 2)
        .backtest 1 ∧
    price_deviation [⟨2, 0, 1, 4⟩, ⟨4, 1, 2, 6⟩, ⟨9, 8, 9, 50⟩] 2 .backtest 1
      = price_deviation [⟨2, 0, 1, 4⟩, ⟨4, 1, 2, 6⟩, ⟨1, 0, 1, 1⟩] 2
        .backtest 1 ∧
    expected_cumvol 2 [sessionA, sessionB] 1 0
      = expected_cumvol 2 [sessionA, sessionC] 1 0 :=
  causality_no_leakage
    [⟨2, 0, 1, 4⟩, ⟨4, 1, 2, 6⟩, ⟨9, 8, 9, 50⟩]
    [⟨2, 0, 1, 4⟩, ⟨4, 1, 2, 6⟩, ⟨1, 0, 1, 1⟩] 1 (by decide)
    2 2 2 .hybrid (1 / 2) 2 [sessionA, sessionB] [sessionA, sessionC] 1 0
    (by decide) (by decide) (by decide)

/-- C4 (Wilder smoothing factor): on the two-bar series `barsWilder` with
True Range sequence `[2, 3]` and window `n = 2`, the claimed Wilder
recursion gives `ATR_1 = 2 + (1/2)·(3 − 2) = 5/2` — exactly what
`daily_data_atr(method="wilder")` computes with its `ewm(alpha=1/lookback)`
— but `technical_indicator.py::atr` uses `ewm(span=window)`, i.e. smoothing
factor `2/(window+1) = 2/3`, and returns `8/3 ≠ 5/2`.  Its backtest mode is
nonetheless the live series shifted by one bar. -/
theorem atr_smoothing_factor_bug :
    trueRange barsWilder 0 = some 2 ∧
    trueRange barsWilder 1 = some 3 ∧
    atr barsWilder 2 .live 0 = some 2 ∧
    atr barsWilder 2 .live 1 = some (8 / 3) ∧
    daily_data_atr barsWilder 2 .wilder 1 = some (5 / 2) ∧
    (8 / 3 : ℚ) ≠ 5 / 2 ∧
    atr barsWilder 2 .backtest 2 = atr barsWilder 2 .live 1 := by
  refine ⟨?_, ?_, ?_, ?_, ?_, by norm_num, rfl⟩
  · norm_num [trueRange, barsWilder]
  · norm_num [trueRange, barsWilder]
  · norm_num [atr, ewmRec, trueRange, barsWilder]
  · norm_num [atr, ewmRec, trueRange, barsWilder]
  · norm_num [daily_data_atr, ewmRec, trueRangeDaily, barsWilder]

/-- C10 (empty-ledger graceful failure): with an empty trade ledger the
evaluator returns the "no trades" report — a total result, so no exception
and in particular no division by the zero trade count can occur. -/
theorem empty_ledger_graceful (portfolio : List ℚ) :
    evaluate_performance [] portfolio = PerfReport.noTrades := by
  simp [evaluate_performance]

/-- Counterexample to C2 as stated: with lookback 2 and two one-bar
sessions, session 1 has exactly one prior observation at slot 0 (session
0's cumulative volume 5), yet `intraday_expected_cum_rvol` — one of the two
functions the claim describes — produces no value there, because its
rolling mean has no `min_periods=1`; `expected_cumvol` does produce 5. -/
theorem expected_curve_min_periods_cx :
    intraday_expected_cum_rvol 2 [[(0, 5)], [(0, 7)]] 1 0 = none ∧
    expected_cumvol 2 [[(0, 5)], [(0, 7)]] 1 0 = some 5 ∧
    sessionCumAt [(0, 5)] 0 = some 5 := by
  refine ⟨?_, ?_, ?_⟩
  · norm_num [intraday_expected_cum_rvol, meanOfFull, windowSlice,
      cumVolColumn, sessionCumAt]
  · norm_num [expected_cumvol, meanOfPresent, windowSlice, cumVolColumn,
      sessionCumAt, List.filterMap_cons, List.filterMap_nil]
  · norm_num [sessionCumAt]

/-- Counterexample to C5 as stated: on a one-bar volume series with window
2 in live mode, the SMA baseline is still NaN at bar 0, so
`hybrid(alpha=0)` is undefined there (NaN poisons `0·SMA + 1·EWM`), while
pure `ewm` already produces `1`: the two series differ in their defined
positions. -/
theorem hybrid_alpha_zero_cx :
    rvol [volBar 1] 2 .hybrid 0 .live 0 = none ∧
    rvol [volBar 1] 2 .ewm 0 .live 0 = some 1 ∧
    rvol [volBar 1] 2 .hybrid 0 .live 0 ≠ rvol [volBar 1] 2 .ewm 0 .live 0 := by
  have h1 : rvol [volBar 1] 2 .hybrid 0 .live 0 = none := by
    norm_num [rvol, rvolBaseline, rvolBaselineLive, smaAt, rollingWindow,
      seqOpt, ewmRec, volAt, volBar]
  have h2 : rvol [volBar 1] 2 .ewm 0 .live 0 = some 1 := by
    norm_num [rvol, rvolBaseline, rvolBaselineLive, ewmRec, volAt, volBar]
  refine ⟨h1, h2, ?_⟩
  rw [h1, h2]
  exact fun h => Option.noConfusion h

/-- Counterexample to C6 as stated: closes `[1, 1, 5]`, window 2, backtest
mode.  At bar 2 the shifted rolling standard deviation is zero (bars 0–1
are both 1), but the result is `+∞` — `(5 − 1) / 0` in IEEE arithmetic —
not an undefined (NaN) value. -/
theorem zero_std_not_undefined_cx :
    price_deviation [closeBar 1, closeBar 1, closeBar 5] 2 .backtest 2
      = PDev.pinf ∧
    rollingVarClose [closeBar 1, closeBar 1, closeBar 5] 2 1 = some 0 ∧
    PDev.pinf ≠ PDev.nan := by
  refine ⟨?_, ?_, by decide⟩
  · norm_num [price_deviation, pdevIdx, closeAt, closeBar, smaAt,
      rollingVarClose, rollingWindow, seqOpt]
  · norm_num [rollingVarClose, rollingWindow, seqOpt, closeAt, closeBar]

lemma expected_cumvol_succ {w : ℕ} {ss : List TradingSession} {d t : ℕ}
    (h : d + 1 < ss.length) :
    expected_cumvol w ss (d + 1) t
      = meanOfPresent (windowSlice (cumVolColumn ss t) w d) := by
  unfold expected_cumvol
  rw [if_pos h]

lemma intraday_expected_cum_rvol_succ {w : ℕ} {ss : List TradingSession}
    {d t : ℕ} (h : d + 1 < ss.length) :
    intraday_expected_cum_rvol w ss (d + 1) t
      = meanOfFull w (windowSlice (cumVolColumn ss t) w d) := by
  unfold intraday_expected_cum_rvol
  rw [if_pos h]

lemma windowSlice_cumVolColumn {ss : List TradingSession} {w d t : ℕ} :
    windowSlice (cumVolColumn ss t) w d
      = ((ss.take (d + 1)).drop (d + 1 - w)).map (fun s => sessionCumAt s t) := by
  unfold windowSlice cumVolColumn
  rw [List.map_drop, List.map_take]

/-- C2 (amended): both expected-curve builders attribute to session `D` a
statistic of the trailing `lookback` sessions strictly before `D` only —
but `expected_cumvol` takes the mean of however many of those sessions have
an observation at slot `t` (at least one suffices, `min_periods=1`), while
`intraday_expected_cum_rvol` requires a full window of `lookback` prior
sessions all observing slot `t`.  With lookback 2 on a 3-session series
(`sessionA`, `sessionB`, any third session), both give session 3 the plain
average of sessions 1–2's cumulative-volume curves — `(2+4)/2 = 3` at slot
0 and `(5+5)/2 = 5` at slot 1 — unchanged under arbitrary replacement of
session 3's own bars. -/
theorem expected_curve_prior_sessions (w : ℕ) (ss : List TradingSession)
    (D t : ℕ) (hD : 1 ≤ D) (hlen : D < ss.length) :
    expected_cumvol w ss D t
      = meanOfPresent (((ss.take D).drop (D - w)).map
          (fun s => sessionCumAt s t)) ∧
    intraday_expected_cum_rvol w ss D t
      = meanOfFull w (((ss.take D).drop (D - w)).map
          (fun s => sessionCumAt s t)) ∧
    (∀ s3 : TradingSession,
      expected_cumvol 2 [sessionA, sessionB, s3] 2 0 = some 3 ∧
      expected_cumvol 2 [sessionA, sessionB, s3] 2 1 = some 5 ∧
      intraday_expected_cum_rvol 2 [sessionA, sessionB, s3] 2 0 = some 3 ∧
      intraday_expected_cum_rvol 2 [sessionA, sessionB, s3] 2 1 = some 5) := by
  obtain ⟨d, rfl⟩ : ∃ d, D = d + 1 := ⟨D - 1, by omega⟩
  refine ⟨?_, ?_, ?_⟩
  · rw [expected_cumvol_succ hlen, windowSlice_cumVolColumn]
  · rw [intraday_expected_cum_rvol_succ hlen, windowSlice_cumVolColumn]
  · intro s3
    refine ⟨?_, ?_, ?_, ?_⟩
    · norm_num [expected_cumvol, meanOfPresent, windowSlice, cumVolColumn,
        sessionCumAt, sessionA, sessionB, List.filterMap_cons,
        List.filterMap_nil]
    · norm_num [expected_cumvol, meanOfPresent, windowSlice, cumVolColumn,
        sessionCumAt, sessionA, sessionB, List.filterMap_cons,
        List.filterMap_nil]
    · norm_num [intraday_expected_cum_rvol, meanOfFull, windowSlice,
        cumVolColumn, sessionCumAt, sessionA, sessionB, seqOpt]
    · norm_num [intraday_expected_cum_rvol, meanOfFull, windowSlice,
        cumVolColumn, sessionCumAt, sessionA, sessionB, seqOpt]

/-- Witness for C2 (amended): lookback 2 over `[sessionA, sessionB,
sessionC]` at session 2, slot 0 — the curve value equals the mean over the
two prior sessions. -/
theorem expected_curve_prior_sessions_witness :
    expected_cumvol 2 [sessionA, sessionB, sessionC] 2 0
      = meanOfPresent ((([sessionA, sessionB, sessionC].take 2).drop 0).map
          (fun s => sessionCumAt s 0)) ∧
    expected_cumvol 2 [sessionA, sessionB, sessionC] 2 0 = some 3 :=
  ⟨(expected_curve_prior_sessions 2 [sessionA, sessionB, sessionC] 2 0
      (by norm_num) (by norm_num)).1,
    ((expected_curve_prior_sessions 2 [sessionA, sessionB, sessionC] 2 0
      (by norm_num) (by norm_num)).2.2 sessionC).1⟩

lemma hybrid_one_baseline {bs : List Bar} {w : ℕ} (hw : 1 ≤ w) (s : ℕ) :
    rvolBaselineLive bs w .hybrid 1 s = rvolBaselineLive bs w .sma 1 s := by
  simp only [rvolBaselineLive]
  cases hs : smaAt (volAt bs) w s with
  | none => rfl
  | some v =>
    have hlen : s < bs.length :=
      volAt_lt_length (smaAt_isSome_last hw (by rw [hs]; rfl))
    have he : (ewmRec (2 / ((w : ℚ) + 1)) (volAt bs) s).isSome = true :=
      ewmRec_isSome (fun j hj => volAt_isSome (by omega))
    rcases Option.isSome_iff_exists.mp he with ⟨e, heq⟩
    rw [heq]
    norm_num

lemma hybrid_zero_baseline {bs : List Bar} {w s : ℕ}
    (h : (smaAt (volAt bs) w s).isSome = true) :
    rvolBaselineLive bs w .hybrid 0 s = rvolBaselineLive bs w .ewm 0 s := by
  simp only [rvolBaselineLive]
  rcases Option.isSome_iff_exists.mp h with ⟨v, hv⟩
  rw [hv]
  cases he : ewmRec (2 / ((w : ℚ) + 1)) (volAt bs) s with
  | none => rfl
  | some e => norm_num

lemma hybrid_baseline_none {bs : List Bar} {w s : ℕ} {a : ℚ}
    (h : smaAt (volAt bs) w s = none) :
    rvolBaselineLive bs w .hybrid a s = none := by
  simp only [rvolBaselineLive]
  rw [h]

lemma rvol_of_baseline_eq {bs : List Bar} {w : ℕ} {m1 m2 : RvolMethod}
    {a1 a2 : ℚ} {mode : Mode} {t : ℕ}
    (h : rvolBaseline bs w m1 a1 mode t = rvolBaseline bs w m2 a2 mode t) :
    rvol bs w m1 a1 mode t = rvol bs w m2 a2 mode t := by
  simp only [rvol]
  rw [h]

lemma rvol_none_of_baseline_none {bs : List Bar} {w : ℕ}
    {method : RvolMethod} {a : ℚ} {mode : Mode} {t : ℕ}
    (h : rvolBaseline bs w method a mode t = none) :
    rvol bs w method a mode t = none := by
  simp only [rvol]
  rw [h]
  cases volAt bs t <;> rfl

/-- C5 (amended): for any window `w ≥ 1`, `hybrid(alpha=1)` is pointwise
identical to the `sma` method (same defined positions, same values); and
`hybrid(alpha=0)` agrees with the `ewm` method wherever the SMA baseline is
defined, but is itself undefined wherever the SMA baseline is undefined
(`0·NaN` still poisons the blend) — there pure `ewm` can still be defined,
as `hybrid_alpha_zero_cx` shows. -/
theorem hybrid_endpoint_identities (bs : List Bar) (w : ℕ) (hw : 1 ≤ w)
    (mode : Mode) (t : ℕ) :
    rvol bs w .hybrid 1 mode t = rvol bs w .sma 1 mode t ∧
    ((rvolBaseline bs w .sma 1 mode t).isSome = true →
      rvol bs w .hybrid 0 mode t = rvol bs w .ewm 0 mode t) ∧
    (rvolBaseline bs w .sma 1 mode t = none →
      rvol bs w .hybrid 0 mode t = none) := by
  refine ⟨?_, ?_, ?_⟩
  · refine rvol_of_baseline_eq ?_
    cases mode with
    | live => exact hybrid_one_baseline hw t
    | backtest =>
      cases t with
      | zero => rfl
      | succ s => exact hybrid_one_baseline hw s
  · intro h
    refine rvol_of_baseline_eq ?_
    cases mode with
    | live => exact hybrid_zero_baseline h
    | backtest =>
      cases t with
      | zero => simp [rvolBaseline] at h
      | succ s => exact hybrid_zero_baseline h
  · intro h
    refine rvol_none_of_baseline_none ?_
    cases mode with
    | live => exact hybrid_baseline_none h
    | backtest =>
      cases t with
      | zero => rfl
      | succ s => exact hybrid_baseline_none h

/-- Witness for C5 (amended): on a two-bar volume series `[1, 3]` with
window 2 in live mode, bar 1 has a defined SMA baseline, and both endpoint
identities hold there. -/
theorem hybrid_endpoint_identities_witness :
    rvol [volBar 1, volBar 3] 2 .hybrid 1 .live 1
      = rvol [volBar 1, volBar 3] 2 .sma 1 .live 1 ∧
    rvol [volBar 1, volBar 3] 2 .hybrid 0 .live 1
      = rvol [volBar 1, volBar 3] 2 .ewm 0 .live 1 :=
  ⟨(hybrid_endpoint_identities [volBar 1, volBar 3] 2 (by norm_num)
      .live 1).1,
    (hybrid_endpoint_identities [volBar 1, volBar 3] 2 (by norm_num)
      .live 1).2.1
      (by norm_num [rvolBaseline, rvolBaselineLive, smaAt, rollingWindow,
        seqOpt, volAt, volBar])⟩

/-- C6 (amended): an RVOL baseline of exactly zero makes RVOL undefined
(never a division error — the embedding is a total function); the
PriceDeviation is undefined before `window` observations have accumulated;
and at a bar whose rolling standard deviation is zero the value is NaN
precisely when the Close equals the rolling mean, and `+∞`/`-∞` — a
non-NaN value — when the (shifted) Close lies above/below the
zero-variance mean, as happens in backtest mode
(`zero_std_not_undefined_cx`). -/
theorem data_sufficiency_gaps (bs : List Bar) (w : ℕ) (method : RvolMethod)
    (a : ℚ) (mode : Mode) (t : ℕ) :
    (rvolBaseline bs w method a mode t = some 0 →
      rvol bs w method a mode t = none) ∧
    (t + 1 < w → price_deviation bs w mode t = PDev.nan) ∧
    (∀ s c m, pdevIdx mode t = some s → closeAt bs t = some c →
      smaAt (closeAt bs) w s = some m → rollingVarClose bs w s = some 0 →
      price_deviation bs w mode t =
        (if c = m then PDev.nan else if m < c then PDev.pinf
          else PDev.ninf)) := by
  refine ⟨?_, ?_, ?_⟩
  · intro h
    simp only [rvol]
    rw [h]
    cases volAt bs t with
    | none => rfl
    | some v => norm_num
  · intro h
    have hsma : ∀ s, s + 1 < w → smaAt (closeAt bs) w s = none := by
      intro s hs
      unfold smaAt rollingWindow
      rw [if_pos hs]
      rfl
    cases mode with
    | live =>
      simp only [price_deviation, pdevIdx]
      rw [hsma t h]
      cases closeAt bs t <;> cases rollingVarClose bs w t <;> rfl
    | backtest =>
      cases t with
      | zero => rfl
      | succ s =>
        simp only [price_deviation, pdevIdx]
        rw [hsma s (by omega)]
        cases closeAt bs (s + 1) <;> cases rollingVarClose bs w s <;> rfl
  · intro s c m h1 h2 h3 h4
    simp only [price_deviation, h1, h2, h3, h4]
    norm_num

/-- Witness for C6 (amended): a zero SMA baseline yields undefined RVOL on
a one-bar series of volume 0; PriceDeviation is undefined at bar 1 of a
two-bar series under window 3; and at the zero-variance backtest bar of
closes `[1, 1, 5]` the characterization yields `+∞`. -/
theorem data_sufficiency_gaps_witness :
    rvol [volBar 0] 1 .sma 0 .live 0 = none ∧
    price_deviation [closeBar 1, closeBar 1] 3 .live 1 = PDev.nan ∧
    price_deviation [closeBar 1, closeBar 1, closeBar 5] 2 .backtest 2 =
      (if (5 : ℚ) = 1 then PDev.nan else if (1 : ℚ) < 5 then PDev.pinf
        else PDev.ninf) :=
  ⟨(data_sufficiency_gaps [volBar 0] 1 .sma 0 .live 0).1
      (by norm_num [rvolBaseline, rvolBaselineLive, smaAt, rollingWindow,
        seqOpt, volAt, volBar]),
    (data_sufficiency_gaps [closeBar 1, closeBar 1] 3 .sma 0 .live 1).2.1
      (by omega),
    (data_sufficiency_gaps [closeBar 1, closeBar 1, closeBar 5] 2 .sma 0
        .backtest 2).2.2 1 5 1 rfl
      (by norm_num [closeAt, closeBar])
      (by norm_num [smaAt, rollingWindow, seqOpt, closeAt, closeBar])
      (by norm_num [rollingVarClose, rollingWindow, seqOpt, closeAt,
        closeBar])⟩

lemma stepBar_of_pos_ne {cfg : BacktestConfig} {day : ℕ} {st : EngineState}
    {row : SignalRow} (h : ¬ st.position = 0) : stepBar cfg day st row = st := by
  simp only [stepBar]
  rw [if_neg h]

lemma foldl_stepBar_of_pos_ne {cfg : BacktestConfig} {day : ℕ}
    {st : EngineState} (h : ¬ st.position = 0) :
    ∀ bars : List SignalRow, bars.foldl (stepBar cfg day) st = st
  | [] => rfl
  | b :: rest => by
    rw [List.foldl_cons, stepBar_of_pos_ne h]
    exact foldl_stepBar_of_pos_ne h rest

lemma foldl_stepBar_flat (cfg : BacktestConfig) (day : ℕ) (st : EngineState)
    (h0 : st.position = 0) (hs : st.shares = 0) :
    ∀ bars : List SignalRow,
      bars.foldl (stepBar cfg day) st = st ∨
      (∃ p, bars.foldl (stepBar cfg day) st =
        ⟨st.cash - cfg.tradeShares * p, 1, cfg.tradeShares,
          st.trades ++ [⟨day, .buy, cfg.tradeShares, p⟩]⟩) ∨
      (∃ p, bars.foldl (stepBar cfg day) st =
        ⟨st.cash + cfg.tradeShares * p, -1, cfg.tradeShares,
          st.trades ++ [⟨day, .sellShort, cfg.tradeShares, p⟩]⟩)
  | [] => Or.inl rfl
  | b :: rest => by
    rw [List.foldl_cons]
    by_cases hb : cfg.entryThreshold < b.rvolCum ∧ b.yUpper < b.close
    · have hstep : stepBar cfg day st b =
          ⟨st.cash - cfg.tradeShares * b.close, 1, cfg.tradeShares,
            st.trades ++ [⟨day, .buy, cfg.tradeShares, b.close⟩]⟩ := by
        simp only [stepBar]
        rw [if_pos h0, if_pos hb]
      rw [hstep, foldl_stepBar_of_pos_ne (by simp) rest]
      exact Or.inr (Or.inl ⟨b.close, rfl⟩)
    · by_cases hsh : cfg.entryThreshold < b.rvolCum ∧ b.close < b.yLower
      · have hstep : stepBar cfg day st b =
            ⟨st.cash + cfg.tradeShares * b.close, -1, cfg.tradeShares,
              st.trades ++ [⟨day, .sellShort, cfg.tradeShares, b.close⟩]⟩ := by
          simp only [stepBar]
          rw [if_pos h0, if_neg hb, if_pos hsh]
        rw [hstep, foldl_stepBar_of_pos_ne (by simp) rest]
        exact Or.inr (Or.inr ⟨b.close, rfl⟩)
      · have hstep : stepBar cfg day st b = st := by
          simp only [stepBar]
          rw [if_pos h0, if_neg hb, if_neg hsh]
        rw [hstep]
        exact foldl_stepBar_flat cfg day st h0 hs rest

lemma closeDay_of_flat {day : ℕ} {bars : List SignalRow} {st : EngineState}
    (h0 : st.position = 0) : closeDay day bars st = st := by
  unfold closeDay
  cases bars.getLast? with
  | none => rfl
  | some lb =>
    rw [h0]
    norm_num

lemma closeDay_long {day : ℕ} {bars : List SignalRow} {st : EngineState}
    {lb : SignalRow} (hlast : bars.getLast? = some lb)
    (h1 : st.position = 1) :
    closeDay day bars st =
      ⟨st.cash + st.shares * lb.close, 0, 0,
        st.trades ++ [⟨day, .sellClose, st.shares, lb.close⟩]⟩ := by
  unfold closeDay
  simp only [hlast]
  rw [if_pos h1]

lemma closeDay_short {day : ℕ} {bars : List SignalRow} {st : EngineState}
    {lb : SignalRow} (hlast : bars.getLast? = some lb)
    (hm : st.position = -1) :
    closeDay day bars st =
      ⟨st.cash - st.shares * lb.close, 0, 0,
        st.trades ++ [⟨day, .buyCover, st.shares, lb.close⟩]⟩ := by
  unfold closeDay
  simp only [hlast]
  rw [if_neg (by rw [hm]; decide), if_pos hm]

lemma runDay_flat_cases (cfg : BacktestConfig) (day : ℕ)
    (bars : List SignalRow) (st : EngineState)
    (h0 : st.position = 0) (hs : st.shares = 0) :
    runDay cfg day bars st = st ∨
    (∃ p q, runDay cfg day bars st =
      ⟨st.cash - cfg.tradeShares * p + cfg.tradeShares * q, 0, 0,
        st.trades ++ [⟨day, .buy, cfg.tradeShares, p⟩,
          ⟨day, .sellClose, cfg.tradeShares, q⟩]⟩) ∨
    (∃ p q, runDay cfg day bars st =
      ⟨st.cash + cfg.tradeShares * p - cfg.tradeShares * q, 0, 0,
        st.trades ++ [⟨day, .sellShort, cfg.tradeShares, p⟩,
          ⟨day, .buyCover, cfg.tradeShares, q⟩]⟩) := by
  unfold runDay
  rcases foldl_stepBar_flat cfg day st h0 hs bars with hf | ⟨p, hf⟩ | ⟨p, hf⟩
  · rw [hf, closeDay_of_flat h0]
    exact Or.inl rfl
  · have hne : bars ≠ [] := by
      intro hnil
      subst hnil
      simp only [List.foldl_nil] at hf
      have hp := congrArg EngineState.position hf
      rw [h0] at hp
      simp at hp
    obtain ⟨lb, hlast⟩ : ∃ lb, bars.getLast? = some lb := by
      cases hl : bars.getLast? with
      | none => exact absurd (List.getLast?_eq_none_iff.mp hl) hne
      | some lb => exact ⟨lb, rfl⟩
    rw [hf, closeDay_long hlast rfl]
    refine Or.inr (Or.inl ⟨p, lb.close, ?_⟩)
    simp [List.append_assoc]
  · have hne : bars ≠ [] := by
      intro hnil
      subst hnil
      simp only [List.foldl_nil] at hf
      have hp := congrArg EngineState.position hf
      rw [h0] at hp
      simp at hp
    obtain ⟨lb, hlast⟩ : ∃ lb, bars.getLast? = some lb := by
      cases hl : bars.getLast? with
      | none => exact absurd (List.getLast?_eq_none_iff.mp hl) hne
      | some lb => exact ⟨lb, rfl⟩
    rw [hf, closeDay_short hlast rfl]
    refine Or.inr (Or.inr ⟨p, lb.close, ?_⟩)
    simp [List.append_assoc]

lemma runDay_flat (cfg : BacktestConfig) (day : ℕ) (bars : List SignalRow)
    (st : EngineState) (h0 : st.position = 0) (hs : st.shares = 0) :
    (runDay cfg day bars st).position = 0 ∧
      (runDay cfg day bars st).shares = 0 := by
  rcases runDay_flat_cases cfg day bars st h0 hs with h | ⟨p, q, h⟩ | ⟨p, q, h⟩
  · rw [h]
    exact ⟨h0, hs⟩
  · rw [h]
    exact ⟨rfl, rfl⟩
  · rw [h]
    exact ⟨rfl, rfl⟩

lemma sessionEndStates_flat (cfg : BacktestConfig) :
    ∀ (days : List (List SignalRow)) (day : ℕ) (st : EngineState),
      st.position = 0 → st.shares = 0 →
      ∀ s ∈ sessionEndStates cfg day st days, s.position = 0 ∧ s.shares = 0
  | [], _, _, _, _ => by
    intro s hmem
    cases hmem
  | d :: rest, day, st, h0, hs => by
    intro s hmem
    have hf := runDay_flat cfg day d st h0 hs
    rcases List.mem_cons.mp hmem with rfl | hmem'
    · exact hf
    · exact sessionEndStates_flat cfg rest (day + 1) _ hf.1 hf.2 s hmem'

lemma runFrom_flat (cfg : BacktestConfig) :
    ∀ (days : List (List SignalRow)) (day : ℕ) (st : EngineState),
      st.position = 0 → st.shares = 0 →
      (runFrom cfg day st days).1.position = 0 ∧
        (runFrom cfg day st days).1.shares = 0
  | [], _, _, h0, hs => ⟨h0, hs⟩
  | d :: rest, day, st, h0, hs => by
    have hf := runDay_flat cfg day d st h0 hs
    exact runFrom_flat cfg rest (day + 1) _ hf.1 hf.2

/-- C3 (session-end flatness): after every session of a run the engine
state is flat with zero shares — including after the last session of the
whole series, i.e. at the very last bar — and the end-of-day exit is
unconditional: from a long position it is a SELL_CLOSE at the session's
last-bar Close, from a short position a BUY_COVER at that Close. -/
theorem session_end_flatness (cfg : BacktestConfig)
    (days : List (List SignalRow)) :
    (∀ st ∈ sessionEndStates cfg 0 (initState cfg) days,
      st.position = 0 ∧ st.shares = 0) ∧
    ((run_backtest cfg days).1.position = 0 ∧
      (run_backtest cfg days).1.shares = 0) ∧
    (∀ (day : ℕ) (bars : List SignalRow) (st : EngineState)
        (lastBar : SignalRow), bars.getLast? = some lastBar →
      (st.position = 1 → closeDay day bars st =
        ⟨st.cash + st.shares * lastBar.close, 0, 0,
          st.trades ++ [⟨day, .sellClose, st.shares, lastBar.close⟩]⟩) ∧
      (st.position = -1 → closeDay day bars st =
        ⟨st.cash - st.shares * lastBar.close, 0, 0,
          st.trades ++ [⟨day, .buyCover, st.shares, lastBar.close⟩]⟩)) := by
  refine ⟨sessionEndStates_flat cfg days 0 (initState cfg) rfl rfl,
    runFrom_flat cfg days 0 (initState cfg) rfl rfl, ?_⟩
  intro day bars st lastBar hlast
  exact ⟨fun h1 => closeDay_long hlast h1, fun hm => closeDay_short hlast hm⟩

/-- Witness for C3: in a one-session demo run whose only bar triggers a
long entry, the session-end state is flat with zero shares, and closing an
explicit long state at a concrete last bar produces the SELL_CLOSE
record. -/
theorem session_end_flatness_witness :
    ((runDay cfgDemo 0 [rowEntryLong] (initState cfgDemo)).position = 0 ∧
      (runDay cfgDemo 0 [rowEntryLong] (initState cfgDemo)).shares = 0) ∧
    closeDay 3 [rowEntryLong] ⟨5000, 1, 100, []⟩ =
      ⟨5000 + 100 * rowEntryLong.close, 0, 0,
        [] ++ [⟨3, .sellClose, 100, rowEntryLong.close⟩]⟩ :=
  ⟨(session_end_flatness cfgDemo [[rowEntryLong]]).1
      (runDay cfgDemo 0 [rowEntryLong] (initState cfgDemo))
      (List.mem_cons_self _ _),
    ((session_end_flatness cfgDemo [[rowEntryLong]]).2.2 3 [rowEntryLong]
      ⟨5000, 1, 100, []⟩ rowEntryLong rfl).1 rfl⟩

lemma stepBar_ledger (cfg : BacktestConfig) (day : ℕ) (st : EngineState)
    (row : SignalRow) :
    ∃ l, (stepBar cfg day st row).trades = st.trades ++ l ∧
      (stepBar cfg day st row).cash = st.cash + (l.map tradeDelta).sum := by
  by_cases h0 : st.position = 0
  · simp only [stepBar]
    rw [if_pos h0]
    by_cases hb : cfg.entryThreshold < row.rvolCum ∧ row.yUpper < row.close
    · rw [if_pos hb]
      refine ⟨[⟨day, .buy, cfg.tradeShares, row.close⟩], rfl, ?_⟩
      simp only [tradeDelta, List.map_cons, List.map_nil, List.sum_cons,
        List.sum_nil]
      ring
    · rw [if_neg hb]
      by_cases hsh : cfg.entryThreshold < row.rvolCum ∧ row.close < row.yLower
      · rw [if_pos hsh]
        refine ⟨[⟨day, .sellShort, cfg.tradeShares, row.close⟩], rfl, ?_⟩
        simp only [tradeDelta, List.map_cons, List.map_nil, List.sum_cons,
          List.sum_nil]
        ring
      · rw [if_neg hsh]
        exact ⟨[], by simp, by simp⟩
  · rw [stepBar_of_pos_ne h0]
    exact ⟨[], by simp, by simp⟩

lemma closeDay_ledger (day : ℕ) (bars : List SignalRow) (st : EngineState) :
    ∃ l, (closeDay day bars st).trades = st.trades ++ l ∧
      (closeDay day bars st).cash = st.cash + (l.map tradeDelta).sum := by
  by_cases h1 : st.position = 1
  · cases hlast : bars.getLast? with
    | none =>
      unfold closeDay
      rw [hlast]
      exact ⟨[], by simp, by simp⟩
    | some lb =>
      rw [closeDay_long hlast h1]
      refine ⟨[⟨day, .sellClose, st.shares, lb.close⟩], rfl, ?_⟩
      simp only [tradeDelta, List.map_cons, List.map_nil, List.sum_cons,
        List.sum_nil]
      ring
  · by_cases hm : st.position = -1
    · cases hlast : bars.getLast? with
      | none =>
        unfold closeDay
        rw [hlast]
        exact ⟨[], by simp, by simp⟩
      | some lb =>
        rw [closeDay_short hlast hm]
        refine ⟨[⟨day, .buyCover, st.shares, lb.close⟩], rfl, ?_⟩
        simp only [tradeDelta, List.map_cons, List.map_nil, List.sum_cons,
          List.sum_nil]
        ring
    · cases hlast : bars.getLast? with
      | none =>
        unfold closeDay
        rw [hlast]
        exact ⟨[], by simp, by simp⟩
      | some lb =>
        unfold closeDay
        simp only [hlast]
        rw [if_neg h1, if_neg hm]
        exact ⟨[], by simp, by simp⟩

lemma foldl_stepBar_ledger (cfg : BacktestConfig) (day : ℕ) :
    ∀ (bars : List SignalRow) (st : EngineState),
      ∃ l, (bars.foldl (stepBar cfg day) st).trades = st.trades ++ l ∧
        (bars.foldl (stepBar cfg day) st).cash
          = st.cash + (l.map tradeDelta).sum
  | [], st => ⟨[], by simp, by simp⟩
  | b :: rest, st => by
    rw [List.foldl_cons]
    obtain ⟨l1, ht1, hc1⟩ := stepBar_ledger cfg day st b
    obtain ⟨l2, ht2, hc2⟩ := foldl_stepBar_ledger cfg day rest (stepBar cfg day st b)
    refine ⟨l1 ++ l2, ?_, ?_⟩
    · rw [ht2, ht1, List.append_assoc]
    · rw [hc2, hc1, List.map_append, List.sum_append]
      ring

lemma runDay_ledger (cfg : BacktestConfig) (day : ℕ) (bars : List SignalRow)
    (st : EngineState) :
    ∃ l, (runDay cfg day bars st).trades = st.trades ++ l ∧
      (runDay cfg day bars st).cash = st.cash + (l.map tradeDelta).sum := by
  unfold runDay
  obtain ⟨l1, ht1, hc1⟩ := foldl_stepBar_ledger cfg day bars st
  obtain ⟨l2, ht2, hc2⟩ := closeDay_ledger day bars (bars.foldl (stepBar cfg day) st)
  refine ⟨l1 ++ l2, ?_, ?_⟩
  · rw [ht2, ht1, List.append_assoc]
  · rw [hc2, hc1, List.map_append, List.sum_append]
    ring

lemma runFrom_ledger (cfg : BacktestConfig) :
    ∀ (days : List (List SignalRow)) (day : ℕ) (st : EngineState),
      ∃ l, (runFrom cfg day st days).1.trades = st.trades ++ l ∧
        (runFrom cfg day st days).1.cash = st.cash + (l.map tradeDelta).sum
  | [], _, st => ⟨[], by simp [runFrom], by simp [runFrom]⟩
  | d :: rest, day, st => by
    obtain ⟨l1, ht1, hc1⟩ := runDay_ledger cfg day d st
    obtain ⟨l2, ht2, hc2⟩ := runFrom_ledger cfg rest (day + 1) (runDay cfg day d st)
    refine ⟨l1 ++ l2, ?_, ?_⟩
    · show (runFrom cfg (day + 1) (runDay cfg day d st) rest).1.trades = _
      rw [ht2, ht1, List.append_assoc]
    · show (runFrom cfg (day + 1) (runDay cfg day d st) rest).1.cash = _
      rw [hc2, hc1, List.map_append, List.sum_append]
      ring

/-- C7 (cash conservation): every recorded entry changes cash by exactly
its signed shares-times-price (`tradeDelta`): BUY by `−s·p`, SELL_SHORT
by `+s·p` at the recording step, SELL_CLOSE by `+s·p` and BUY_COVER by
`−s·p` at the end-of-day close; consequently a session that opens and
closes a position ends with `cash_before − entry_cost + exit_proceeds`
(long) or `cash_before + entry_credit − cover_cost` (short), and over a
whole run the final cash equals the initial capital plus the sum of
`tradeDelta` over the entire ledger. -/
theorem cash_conservation (cfg : BacktestConfig)
    (days : List (List SignalRow)) :
    (∀ (day : ℕ) (st : EngineState) (row : SignalRow),
      ∃ l, (stepBar cfg day st row).trades = st.trades ++ l ∧
        (stepBar cfg day st row).cash = st.cash + (l.map tradeDelta).sum) ∧
    (∀ (day : ℕ) (bars : List SignalRow) (st : EngineState),
      ∃ l, (closeDay day bars st).trades = st.trades ++ l ∧
        (closeDay day bars st).cash = st.cash + (l.map tradeDelta).sum) ∧
    (∀ (day : ℕ) (bars : List SignalRow) (st : EngineState),
      st.position = 0 → st.shares = 0 →
      runDay cfg day bars st = st ∨
      (∃ p q, runDay cfg day bars st =
        ⟨st.cash - cfg.tradeShares * p + cfg.tradeShares * q, 0, 0,
          st.trades ++ [⟨day, .buy, cfg.tradeShares, p⟩,
            ⟨day, .sellClose, cfg.tradeShares, q⟩]⟩) ∨
      (∃ p q, runDay cfg day bars st =
        ⟨st.cash + cfg.tradeShares * p - cfg.tradeShares * q, 0, 0,
          st.trades ++ [⟨day, .sellShort, cfg.tradeShares, p⟩,
            ⟨day, .buyCover, cfg.tradeShares, q⟩]⟩)) ∧
    ((run_backtest cfg days).1.cash = cfg.initialCapital
      + (((run_backtest cfg days).1.trades).map tradeDelta).sum) := by
  refine ⟨stepBar_ledger cfg, closeDay_ledger,
    fun day bars st h0 hs => runDay_flat_cases cfg day bars st h0 hs, ?_⟩
  obtain ⟨l, ht, hc⟩ := runFrom_ledger cfg days 0 (initState cfg)
  show (runFrom cfg 0 (initState cfg) days).1.cash = cfg.initialCapital
    + (List.map tradeDelta (runFrom cfg 0 (initState cfg) days).1.trades).sum
  rw [hc, ht]
  simp [initState]

/-- Witness for C7: a long entry step from the initial demo state records
a ledger extension whose `tradeDelta` sum is its exact cash change, and a
one-bar session from a flat state lands in one of the three round-trip
forms. -/
theorem cash_conservation_witness :
    (∃ l, (stepBar cfgDemo 0 (initState cfgDemo) rowEntryLong).trades
        = (initState cfgDemo).trades ++ l ∧
      (stepBar cfgDemo 0 (initState cfgDemo) rowEntryLong).cash
        = (initState cfgDemo).cash + (l.map tradeDelta).sum) ∧
    (runDay cfgDemo 0 [rowEntryLong] (initState cfgDemo) = initState cfgDemo ∨
      (∃ p q, runDay cfgDemo 0 [rowEntryLong] (initState cfgDemo) =
        ⟨(initState cfgDemo).cash - cfgDemo.tradeShares * p
            + cfgDemo.tradeShares * q, 0, 0,
          (initState cfgDemo).trades
            ++ [⟨0, .buy, cfgDemo.tradeShares, p⟩,
              ⟨0, .sellClose, cfgDemo.tradeShares, q⟩]⟩) ∨
      (∃ p q, runDay cfgDemo 0 [rowEntryLong] (initState cfgDemo) =
        ⟨(initState cfgDemo).cash + cfgDemo.tradeShares * p
            - cfgDemo.tradeShares * q, 0, 0,
          (initState cfgDemo).trades
            ++ [⟨0, .sellShort, cfgDemo.tradeShares, p⟩,
              ⟨0, .buyCover, cfgDemo.tradeShares, q⟩]⟩)) :=
  ⟨(cash_conservation cfgDemo []).1 0 (initState cfgDemo) rowEntryLong,
    (cash_conservation cfgDemo []).2.2.1 0 [rowEntryLong] (initState cfgDemo)
      rfl rfl⟩

lemma alternating_append_pair (e x : Trade) (hex : exitMatches e x = true) :
    ∀ l : List Trade, alternatingLedger l = true →
      alternatingLedger (l ++ [e, x]) = true
  | [], _ => by simp [alternatingLedger, hex]
  | [a], h => by simp [alternatingLedger] at h
  | a :: b :: rest, h => by
    simp only [alternatingLedger, Bool.and_eq_true] at h
    simp only [List.cons_append, alternatingLedger, Bool.and_eq_true]
    exact ⟨h.1, alternating_append_pair e x hex rest h.2⟩

lemma alternating_length_even : ∀ l : List Trade,
    alternatingLedger l = true → l.length % 2 = 0
  | [], _ => rfl
  | [a], h => by simp [alternatingLedger] at h
  | a :: b :: rest, h => by
    simp only [alternatingLedger, Bool.and_eq_true] at h
    have := alternating_length_even rest h.2
    simp only [List.length_cons]
    omega

lemma pairPnls_isSome_of_alternating : ∀ l : List Trade,
    alternatingLedger l = true → (pairPnls l).isSome = true
  | [], _ => rfl
  | [a], h => by simp [alternatingLedger] at h
  | a :: b :: rest, h => by
    simp only [alternatingLedger, Bool.and_eq_true] at h
    have ih := pairPnls_isSome_of_alternating rest h.2
    rcases Option.isSome_iff_exists.mp ih with ⟨l', hl'⟩
    simp only [pairPnls]
    rw [hl']
    rfl

lemma runFrom_alternating (cfg : BacktestConfig) :
    ∀ (days : List (List SignalRow)) (day : ℕ) (st : EngineState),
      st.position = 0 → st.shares = 0 → alternatingLedger st.trades = true →
      alternatingLedger (runFrom cfg day st days).1.trades = true
  | [], _, _, _, _, halt => halt
  | d :: rest, day, st, h0, hs, halt => by
    have hflat := runDay_flat cfg day d st h0 hs
    have halt' : alternatingLedger (runDay cfg day d st).trades = true := by
      rcases runDay_flat_cases cfg day d st h0 hs with h | ⟨p, q, h⟩ | ⟨p, q, h⟩
      · rw [h]
        exact halt
      · rw [h]
        exact alternating_append_pair _ _ (by simp [exitMatches]) _ halt
      · rw [h]
        exact alternating_append_pair _ _ (by simp [exitMatches]) _ halt
    exact runFrom_alternating cfg rest (day + 1) _ hflat.1 hflat.2 halt'

/-- C9 (implicit ledger alternation): every ledger the engine produces
splits into consecutive (entry, exit) pairs — each even row a BUY or
SELL_SHORT whose immediate successor is the matching SELL_CLOSE or
BUY_COVER with the same share count in the same session
(`alternatingLedger`) — so its length is even and the evaluator's stride-2
pairing never reads past the end of the ledger (`pairPnls` succeeds). -/
theorem ledger_alternation (cfg : BacktestConfig)
    (days : List (List SignalRow)) :
    alternatingLedger (run_backtest cfg days).1.trades = true ∧
    (run_backtest cfg days).1.trades.length % 2 = 0 ∧
    (pairPnls (run_backtest cfg days).1.trades).isSome = true := by
  have h : alternatingLedger (run_backtest cfg days).1.trades = true :=
    runFrom_alternating cfg days 0 (initState cfg) rfl rfl rfl
  exact ⟨h, alternating_length_even _ h, pairPnls_isSome_of_alternating _ h⟩

lemma pairPnls_of_even : ∀ (n : ℕ) (l : List Trade), l.length = 2 * n →
    ∃ pnls, pairPnls l = some pnls ∧ pnls.length = n ∧
      ∀ k e x, l[2 * k]? = some e → l[2 * k + 1]? = some x →
        pnls[k]? = some (pnlOfPair e x)
  | 0, l, h => by
    have hnil : l = [] := List.length_eq_zero.mp (by omega)
    subst hnil
    refine ⟨[], rfl, rfl, ?_⟩
    intro k e x he hx
    simp at he
  | n + 1, [], h => by simp at h
  | n + 1, [a], h => by
    simp only [List.length_cons, List.length_nil] at h
    omega
  | n + 1, e :: x :: rest, h => by
    have hr : rest.length = 2 * n := by
      simp only [List.length_cons] at h
      omega
    obtain ⟨pnls, hp, hlen, hidx⟩ := pairPnls_of_even n rest hr
    refine ⟨pnlOfPair e x :: pnls, ?_, by simp [hlen], ?_⟩
    · simp only [pairPnls]
      rw [hp]
      rfl
    · intro k e' x' he hx
      cases k with
      | zero =>
        simp only [Nat.mul_zero, Nat.zero_add, List.getElem?_cons_zero,
          List.getElem?_cons_succ, Option.some.injEq] at he hx
        rw [← he, ← hx]
        simp
      | succ k' =>
        have e1 : (e :: x :: rest)[2 * (k' + 1)]? = rest[2 * k']? := by
          have h2 : 2 * (k' + 1) = 2 * k' + 1 + 1 := by ring
          rw [h2, List.getElem?_cons_succ, List.getElem?_cons_succ]
        have e2 : (e :: x :: rest)[2 * (k' + 1) + 1]? = rest[2 * k' + 1]? := by
          have h2 : 2 * (k' + 1) + 1 = 2 * k' + 1 + 1 + 1 := by ring
          rw [h2, List.getElem?_cons_succ, List.getElem?_cons_succ]
        rw [e1] at he
        rw [e2] at hx
        rw [List.getElem?_cons_succ]
        exact hidx k' e' x' he hx

/-- C8 (evaluator pairing and statistics): on a nonempty even-length
ledger — the only shape the engine produces, see `ledger_alternation` —
with a nonempty portfolio history, the evaluator pairs rows with stride 2
(entry at index `2k`, exit at `2k+1`), scores a BUY entry as
`(exit.price − entry.price)·shares` and a SELL_SHORT entry as
`(entry.price − exit.price)·shares`, and reports `len/2` trades, win rate
`wins/num_trades` (scaled to percent), and per-bucket averages of the
positive and non-positive P&L buckets, each 0 when its bucket is empty. -/
theorem evaluator_pairing_stats (trades : List Trade) (portfolio : List ℚ)
    (m : ℕ) (hlen : trades.length = 2 * (m + 1)) (hp : portfolio ≠ []) :
    ∃ pnls, pairPnls trades = some pnls ∧ pnls.length = m + 1 ∧
      (∀ k e x, trades[2 * k]? = some e → trades[2 * k + 1]? = some x →
        pnls[k]? = some (if e.action = TradeAction.buy
          then (x.price - e.price) * e.shares
          else (e.price - x.price) * e.shares)) ∧
      evaluate_performance trades portfolio = .report
        { numTrades := m + 1
          wins := pnls.filter (fun p => decide (0 < p))
          losses := pnls.filter (fun p => !decide (0 < p))
          winRate := ((pnls.filter (fun p => decide (0 < p))).length : ℚ)
            / ((m + 1 : ℕ) : ℚ) * 100
          avgWin := if (pnls.filter (fun p => decide (0 < p))).isEmpty then 0
            else (pnls.filter (fun p => decide (0 < p))).sum
              / ((pnls.filter (fun p => decide (0 < p))).length : ℚ)
          avgLoss :=
            if (pnls.filter (fun p => !decide (0 < p))).isEmpty then 0
            else (pnls.filter (fun p => !decide (0 < p))).sum
              / ((pnls.filter (fun p => !decide (0 < p))).length : ℚ) } := by
  obtain ⟨pnls, hp2, hlen2, hidx⟩ := pairPnls_of_even (m + 1) trades hlen
  have hne : trades.isEmpty = false := by
    cases trades with
    | nil => simp at hlen
    | cons a l => rfl
  have hpe : portfolio.isEmpty = false := by
    cases portfolio with
    | nil => exact absurd rfl hp
    | cons a l => rfl
  have hnum : trades.length / 2 = m + 1 := by omega
  refine ⟨pnls, hp2, hlen2, fun k e x he hx => hidx k e x he hx, ?_⟩
  simp only [evaluate_performance, hne, hpe, Bool.or_false, Bool.false_eq_true,
    if_false, hp2, hnum]
  rw [if_neg (Nat.succ_ne_zero m)]

/-- Witness for C8: the two-row demo ledger (one long round trip bought at
50 and closed at 55) with a one-entry portfolio history satisfies the full
pairing-and-statistics characterization. -/
theorem evaluator_pairing_stats_witness :
    ∃ pnls, pairPnls demoTrades = some pnls ∧ pnls.length = 0 + 1 ∧
      (∀ k e x, demoTrades[2 * k]? = some e →
        demoTrades[2 * k + 1]? = some x →
        pnls[k]? = some (if e.action = TradeAction.buy
          then (x.price - e.price) * e.shares
          else (e.price - x.price) * e.shares)) ∧
      evaluate_performance demoTrades [10500] = .report
        { numTrades := 0 + 1
          wins := pnls.filter (fun p => decide (0 < p))
          losses := pnls.filter (fun p => !decide (0 < p))
          winRate := ((pnls.filter (fun p => decide (0 < p))).length : ℚ)
            / ((0 + 1 : ℕ) : ℚ) * 100
          avgWin := if (pnls.filter (fun p => decide (0 < p))).isEmpty then 0
            else (pnls.filter (fun p => decide (0 < p))).sum
              / ((pnls.filter (fun p => decide (0 < p))).length : ℚ)
          avgLoss :=
            if (pnls.filter (fun p => !decide (0 < p))).isEmpty then 0
            else (pnls.filter (fun p => !decide (0 < p))).sum
              / ((pnls.filter (fun p => !decide (0 < p))).length : ℚ) } :=
  evaluator_pairing_stats demoTrades [10500] 0 rfl (by simp)
